import Mathlib

/-!
Verification development for the zkRust source-transformation core.

The definitions below are a shallow embedding of the Rust code in
`src/utils.rs` and `src/sp1.rs`:

* strings are modelled as `List Char` (the code under scrutiny treats its
  inputs as ASCII; the Rust byte indices coincide with character indices on
  such inputs);
* the brace-matching automaton of `handle_stack` / `handle_char` keeps its
  stack of `&'static str` tags; the tags are modelled by the inductive type
  `StackSym`, one constructor per tag, with the top of the Rust `Vec` (its
  last element) at the head of the Lean list;
* file I/O is abstracted away: each function receives the file contents it
  would have read and returns the contents it would have written;
* a Rust panic (out-of-order slice indices in `extract_function_bodies`)
  is modelled by `Option.none`.
-/

/-- Rust `char::is_whitespace` restricted to the ASCII inputs the tool
processes (space, tab, carriage return, line feed). -/
def isWs (c : Char) : Bool :=
  c = ' ' || c = '\t' || c = '\r' || c = '\n'

/-- Rust `str::trim`: remove leading and trailing whitespace. -/
def trim (s : List Char) : List Char :=
  ((s.dropWhile isWs).reverse.dropWhile isWs).reverse

/-- First index at which `pat` occurs in `s` (Rust `str::find`). -/
def findSub (pat : List Char) : List Char → Option Nat
  | [] => if pat.isPrefixOf ([] : List Char) then some 0 else none
  | c :: rest =>
    if pat.isPrefixOf (c :: rest) then some 0
    else (findSub pat rest).map (· + 1)

/-- Whether `pat` occurs somewhere in `s` (Rust `str::contains`). -/
def containsSub (pat s : List Char) : Bool :=
  (findSub pat s).isSome

/-- The tags pushed on the scanner stack by `handle_stack` / `handle_char`
in `src/utils.rs`.  Constructor ↔ Rust tag:
`openBrace ↔ "{"`, `slash ↔ "/"`, `lineComment ↔ "//comment"`,
`blockComment ↔ "/*comment*\\"`, `blockStar ↔ "*"`,
`strLit ↔ "\"string\""`, `charLit ↔ "'c'"`. -/
inductive StackSym where
  | openBrace
  | slash
  | lineComment
  | blockComment
  | blockStar
  | strLit
  | charLit
  deriving DecidableEq, Repr

open StackSym in
/-- Rust `handle_char` (`src/utils.rs:191`): character handling in the
normal state.  Returns the `bool` result and the updated stack (top at the
head of the list; `Vec::pop` on an empty stack is a no-op, after which
`is_empty` holds, hence the `[]` case below). -/
def handle_char (ch : Char) (stack : List StackSym) : Bool × List StackSym :=
  if ch = '/' then (false, slash :: stack)
  else if ch = '\x7b' then (false, openBrace :: stack)
  else if ch = '\x7d' then
    match stack with
    | [] => (true, [])
    | [_] => (true, [])
    | _ :: s => (false, s)
  else if ch = '\"' then (false, strLit :: stack)
  else if ch = '\'' then (false, charLit :: stack)
  else (false, stack)

open StackSym in
/-- Rust `handle_stack` (`src/utils.rs:138`): dispatch on the tag at the
top of the stack.  In the `slash` state with a character other than `/` or
`*`, the Rust code pops the `/` tag and calls `handle_char` but discards
its boolean result. -/
def handle_stack (ch : Char) (stack : List StackSym) : Bool × List StackSym :=
  match stack with
  | openBrace :: _ => handle_char ch stack
  | slash :: rest =>
    if ch = '/' then (false, lineComment :: rest)
    else if ch = '*' then (false, blockComment :: rest)
    else (false, (handle_char ch rest).2)
  | lineComment :: rest =>
    if ch = '\n' then (false, rest) else (false, stack)
  | blockComment :: _ =>
    if ch = '*' then (false, blockStar :: stack) else (false, stack)
  | blockStar :: rest =>
    if ch = '/' then (false, rest.tail) else (false, rest)
  | strLit :: rest =>
    if ch = '\"' then (false, rest) else (false, stack)
  | charLit :: rest =>
    if ch = '\'' then (false, rest) else (false, stack)
  | [] => (false, stack)

/-- The scanning loop of `extract_function_bodies`: feed the characters
after the opening brace to `handle_stack`, returning the index of the
character at which it reports the end of the body (`none` when the loop
runs to end of input without closing). -/
def scanBody : List Char → List StackSym → Option Nat
  | [], _ => none
  | c :: cs, st =>
    let r := handle_stack c st
    if r.1 then some 0 else (scanBody cs r.2).map (· + 1)

/-- The marker-search loop of `extract_function_bodies`
(`src/utils.rs:102-112`): a forward-only cursor; a marker that is not
found at or after the cursor is skipped and the cursor stays. -/
def findMarkersFrom (code : List Char) (index : Nat) :
    List (List Char) → List Nat
  | [] => []
  | k :: ks =>
    match findSub k (code.drop index) with
    | some j => (index + j) :: findMarkersFrom code (index + j + k.length) ks
    | none => findMarkersFrom code index ks

/-- All marker start indices, starting the cursor at 0. -/
def findMarkers (code : List Char) (fns : List (List Char)) : List Nat :=
  findMarkersFrom code 0 fns

/-- Result of processing one found marker in the extraction loop
(`src/utils.rs:116-132`): no opening brace after the marker (the index is
silently skipped), a panic (no closing brace was found, so the Rust slice
`code[start_brace_index + 1..end_index]` has its end before its start), or
an extracted body. -/
inductive ExtractOne where
  | skip
  | panic
  | body (b : List Char)
  deriving DecidableEq, Repr

/-- Process one marker start index. -/
def extractOne (code : List Char) (start : Nat) : ExtractOne :=
  match findSub ['\x7b'] (code.drop start) with
  | none => ExtractOne.skip
  | some j =>
    let sbi := start + j
    match scanBody (code.drop (sbi + 1)) [StackSym.openBrace] with
    | none => ExtractOne.panic
    | some i => ExtractOne.body (trim ((code.drop (sbi + 1)).take i))

/-- The extraction loop over all found start indices. -/
def extractLoop (code : List Char) : List Nat → Option (List (List Char))
  | [] => some []
  | s :: ss =>
    match extractOne code s with
    | ExtractOne.skip => extractLoop code ss
    | ExtractOne.panic => none
    | ExtractOne.body b => (extractLoop code ss).map (b :: ·)

/-- Rust `extract_function_bodies` (`src/utils.rs:94`), with the file
contents passed directly and a panic modelled as `none`. -/
def extract_function_bodies (code : List Char) (functions : List (List Char)) :
    Option (List (List Char)) :=
  extractLoop code (findMarkers code functions)

/-- Rust `str::replace` (all non-overlapping occurrences, left to right),
as used by `prepare_host` and `prepare_guest`.  The guard `pat ≠ []` only
rules out the degenerate empty pattern, which the code never uses. -/
def replaceAll (pat rep : List Char) : List Char → List Char
  | [] => []
  | c :: rest =>
    if h : pat ≠ [] ∧ pat.isPrefixOf (c :: rest) then
      rep ++ replaceAll pat rep ((c :: rest).drop pat.length)
    else
      c :: replaceAll pat rep rest
termination_by s => s.length
decreasing_by
  · simp only [List.length_drop, List.length_cons]
    have hp : 0 < pat.length := List.length_pos.mpr h.1
    omega
  · simp

/-- `utils::IO_WRITE` -/
def IO_WRITE : List Char := "zk_rust_io::write".toList

/-- `utils::IO_OUT` -/
def IO_OUT : List Char := "zk_rust_io::out();".toList

/-- `utils::HOST_INPUT` -/
def HOST_INPUT : List Char := "// INPUT //".toList

/-- `utils::HOST_OUTPUT` -/
def HOST_OUTPUT : List Char := "// OUTPUT //".toList

/-- `sp1::SP1_HOST_WRITE` -/
def SP1_HOST_WRITE : List Char := "stdin.write".toList

/-- `sp1::SP1_HOST_READ` -/
def SP1_HOST_READ : List Char := "proof.public_values.read();".toList

/-- Rust `sp1::prepare_host` (`src/sp1.rs:56`): prepend the imports to the
base template contents, splice the input and output bodies at the two
markers, then remap the generic write and read-result tokens.  `contents`
is what `fs::read_to_string(host_dir)` returned; the result is what is
written to `host_main`. -/
def prepare_host (input output imports contents : List Char) : List Char :=
  replaceAll IO_OUT SP1_HOST_READ
    (replaceAll IO_WRITE SP1_HOST_WRITE
      (replaceAll HOST_OUTPUT output
        (replaceAll HOST_INPUT input (imports ++ contents))))

/-- The `"[dependencies]"` section header searched by `copy_dependencies`. -/
def DEPS_HEADER : List Char := "[dependencies]".toList

/-- The `"\n["` delimiter ending a manifest section. -/
def NL_LBRACK : List Char := ['\n', '[']

/-- Split a character list at every occurrence of `c` (the line structure
used by `str::lines`; trailing empty fragments are removed later by the
trim/filter steps of `copy_dependencies`). -/
def splitOnChar (c : Char) : List Char → List (List Char)
  | [] => [[]]
  | x :: xs =>
    if x = c then [] :: splitOnChar c xs
    else
      match splitOnChar c xs with
      | [] => [[x]]
      | y :: ys => (x :: y) :: ys

/-- The dependency-line parse done by `copy_dependencies`
(`src/utils.rs:235-239` and `247-251`): split into lines, trim each, keep
the non-empty ones that do not start with `'['`. -/
def parseDeps (sec : List Char) : List (List Char) :=
  ((splitOnChar '\n' sec).map trim).filter
    (fun l => !l.isEmpty && !(l.head? == some '['))

/-- The text of the `[dependencies]` section when the header starts at
index `i`: everything after the header up to the next `"\n["` or the end
of the file. -/
def depsSectionAfter (content : List Char) (i : Nat) : List Char :=
  (content.drop (i + DEPS_HEADER.length)).take
    ((findSub NL_LBRACK (content.drop (i + DEPS_HEADER.length))).getD
      (content.drop (i + DEPS_HEADER.length)).length)

/-- The destination's parsed dependency lines (`src/utils.rs:242-254`):
empty when the destination has no `[dependencies]` header. -/
def existing_deps (content : List Char) : List (List Char) :=
  match findSub DEPS_HEADER content with
  | some i => parseDeps (depsSectionAfter content i)
  | none => []

/-- The dependency key: the text before the first `'='`, trimmed
(`dep.split('=').next().unwrap_or("").trim()`). -/
def depKey (l : List Char) : List Char :=
  trim (l.takeWhile (fun c => !(c == '=')))

/-- Source dependencies whose key is absent from the destination
(`src/utils.rs:257-264`). -/
def new_deps (sdeps existing : List (List Char)) : List (List Char) :=
  sdeps.filter (fun dep => !(existing.any (fun ex => depKey ex == depKey dep)))

/-- The fold at `src/utils.rs:265-271`: join the new dependency lines with
single newlines (no leading or trailing newline). -/
def joinDeps : List (List Char) → List Char
  | [] => []
  | [d] => d
  | d :: ds => d ++ '\n' :: joinDeps ds

/-- The error message of `copy_dependencies`. -/
def DEPS_ERR : List Char :=
  "Failed to find `[dependencies]` in project Cargo.toml".toList

/-- Rust `copy_dependencies` (`src/utils.rs:214`): `src` and `dst` are the
two file contents; `Except.ok` carries the new destination contents (all
writes are appends), `Except.error` the error message.  The header block
appended when the destination lacks one is `"\n[dependencies]\n"`
(`writeln!`), and the extra newline is appended exactly when the original
destination contents do not end with `'\n'`. -/
def copy_dependencies (src dst : List Char) : Except (List Char) (List Char) :=
  match findSub DEPS_HEADER src with
  | none => Except.error DEPS_ERR
  | some i =>
    let nd := new_deps (parseDeps (depsSectionAfter src i)) (existing_deps dst)
    if nd.isEmpty then Except.ok dst
    else
      Except.ok
        ((if containsSub DEPS_HEADER dst then dst
          else dst ++ '\n' :: DEPS_HEADER ++ ['\n'])
         ++ (if dst.getLast? == some '\n' then [] else ['\n'])
         ++ joinDeps nd ++ ['\n'])

/-- The destination file contents after a `copy_dependencies` call: on
error the function returns before any write, so the file is unchanged. -/
def dest_after (src dst : List Char) : List Char :=
  match copy_dependencies src dst with
  | Except.ok d => d
  | Except.error _ => dst

/-- The import-line test of `get_imports` (`src/utils.rs:393-396`). -/
def isImportStart (l : List Char) : Bool :=
  "use ".toList.isPrefixOf (l.dropWhile isWs)
  || "pub mod ".toList.isPrefixOf (l.dropWhile isWs)
  || "mod ".toList.isPrefixOf (l.dropWhile isWs)

/-- The two loops of `get_imports` (`src/utils.rs:390-413`) as a mode flag
over the shared line iterator: `false` is the outer loop (looking for the
start of an import), `true` the inner loop (consuming continuation lines of a
multi-line declaration until one contains `';'`). -/
def getImportsGo : Bool → List (List Char) → List Char
  | _, [] => []
  | false, l :: ls =>
    if isImportStart l then
      if l.contains ';' then l ++ '\n' :: getImportsGo false ls
      else l ++ '\n' :: getImportsGo true ls
    else getImportsGo false ls
  | true, l :: ls =>
    if l.contains ';' then l ++ '\n' :: getImportsGo false ls
    else l ++ '\n' :: getImportsGo true ls

/-- Rust `get_imports` (`src/utils.rs:382`), with the file contents passed
as its list of lines. -/
def get_imports (lines : List (List Char)) : List Char :=
  getImportsGo false lines

/-- A `src` directory, as the association of file names to contents. -/
abbrev FileMap := List (String × List Char)

/-- The purge loop of `prepare_workspace` (`src/utils.rs:317-338`): every
entry whose name is not `"metrics.rs"` is removed. -/
def purge_src (d : FileMap) : FileMap :=
  d.filter (fun e => e.1 == "metrics.rs")

/-- `fs::copy` into a directory: overwrite any file of the same name. -/
def insert_file (d : FileMap) (name : String) (content : List Char) : FileMap :=
  d.filter (fun e => !(e.1 == name)) ++ [(name, content)]

/-- The copy loop of `prepare_workspace` (`src/utils.rs:342-357`): copy
every user entry except one named `"metrics.rs"` into the destination. -/
def copy_into_src (user dest : FileMap) : FileMap :=
  user.foldl
    (fun acc e => if e.1 == "metrics.rs" then acc else insert_file acc e.1 e.2)
    dest

/-- The effect of `prepare_workspace` on one destination `src` directory:
purge, then copy the user project's `src` entries in. -/
def prepare_workspace_src (user dest : FileMap) : FileMap :=
  copy_into_src user (purge_src dest)

/-- Number of open-brace tags on the scanner stack: the nesting depth
tracked by `extract_function_bodies`. -/
def braceDepth (st : List StackSym) : Nat :=
  st.count StackSym.openBrace

/-- `handle_stack` reports the end of a body only from the normal state
(an open-brace tag on top), on a closing brace, with the resulting stack
empty. -/
theorem handle_stack_true (ch : Char) (st : List StackSym)
    (h : (handle_stack ch st).1 = true) :
    st.head? = some StackSym.openBrace ∧ ch = '\x7d'
      ∧ (handle_stack ch st).2 = [] := by
  match st with
  | [] => simp [handle_stack] at h
  | StackSym.openBrace :: rest =>
    simp only [handle_stack, handle_char] at h ⊢
    split_ifs at h ⊢ with h1 h2 h3 h4 h5 <;> simp_all
    cases rest <;> simp_all
  | StackSym.slash :: rest =>
    simp only [handle_stack] at h
    split_ifs at h <;> simp_all
  | StackSym.lineComment :: rest =>
    simp only [handle_stack] at h
    split_ifs at h <;> simp_all
  | StackSym.blockComment :: rest =>
    simp only [handle_stack] at h
    split_ifs at h <;> simp_all
  | StackSym.blockStar :: rest =>
    simp only [handle_stack] at h
    split_ifs at h <;> simp_all
  | StackSym.strLit :: rest =>
    simp only [handle_stack] at h
    split_ifs at h <;> simp_all
  | StackSym.charLit :: rest =>
    simp only [handle_stack] at h
    split_ifs at h <;> simp_all

/-- C1: on the scenario-A source
`fn main() { let x = 1; /* { */ }` / `fn input() { }` / `fn output() { }`
with markers `["fn main()", "fn input()", "fn output()"]`,
`extract_function_bodies` returns exactly the three bodies
`"let x = 1; /* { */"`, `""`, `""` in that order: the opening brace inside
the block comment does not increase nesting, and each body is the trimmed
slice strictly between a function's first opening brace and its matching
closing brace. -/
theorem extract_scenario_a :
    extract_function_bodies
      ("fn main() \x7b let x = 1; /* \x7b */ \x7d\nfn input() \x7b \x7d\nfn output() \x7b \x7d").toList
      ["fn main()".toList, "fn input()".toList, "fn output()".toList]
    = some ["let x = 1; /* \x7b */".toList, [], []] := by
  decide

/-- C2: a closing brace seen while the scanner is inside a line comment, a
block comment (either block-comment tag), a string literal, or a character
literal neither ends the body (`handle_stack` returns `false`) nor changes
the nesting depth; and `handle_stack` reports the end of a body only for a
closing brace in the normal state that empties the stack. -/
theorem closing_brace_ignored_in_comment_or_literal
    (s : StackSym) (st st₂ : List StackSym) (ch : Char)
    (h : s ∈ [StackSym.lineComment, StackSym.blockComment, StackSym.blockStar,
              StackSym.strLit, StackSym.charLit]) :
    (handle_stack '\x7d' (s :: st)).1 = false
    ∧ braceDepth (handle_stack '\x7d' (s :: st)).2 = braceDepth (s :: st)
    ∧ ((handle_stack ch st₂).1 = true →
        st₂.head? = some StackSym.openBrace ∧ ch = '\x7d'
          ∧ (handle_stack ch st₂).2 = []) := by
  refine ⟨?_, ?_, handle_stack_true ch st₂⟩ <;>
    fin_cases h <;>
      simp [handle_stack, braceDepth, List.count_cons]

theorem closing_brace_ignored_witness :
    (StackSym.strLit ∈ [StackSym.lineComment, StackSym.blockComment,
        StackSym.blockStar, StackSym.strLit, StackSym.charLit])
    ∧ ((handle_stack '\x7d' [StackSym.strLit, StackSym.openBrace]).1 = false
       ∧ braceDepth (handle_stack '\x7d'
            [StackSym.strLit, StackSym.openBrace]).2
          = braceDepth [StackSym.strLit, StackSym.openBrace]
       ∧ ((handle_stack '\x7d' [StackSym.openBrace]).1 = true →
           ([StackSym.openBrace] : List StackSym).head?
              = some StackSym.openBrace
           ∧ '\x7d' = '\x7d'
           ∧ (handle_stack '\x7d' [StackSym.openBrace]).2 = [])) :=
  ⟨by decide,
   closing_brace_ignored_in_comment_or_literal StackSym.strLit
     [StackSym.openBrace] [StackSym.openBrace] '\x7d' (by decide)⟩

/-- C8: the scanner has no escape state: inside a string or character
literal a backslash leaves the state unchanged, and the following quote is
treated as the literal's terminator.  Concretely, on
`fn f() { let s = "a\"b}"; }` the brace inside the string literal ends the
body because the escaped quote closed the string state. -/
theorem escaped_quote_terminates_literal (st : List StackSym) :
    handle_stack '\\' (StackSym.strLit :: st) = (false, StackSym.strLit :: st)
    ∧ handle_stack '\"' (StackSym.strLit :: st) = (false, st)
    ∧ handle_stack '\\' (StackSym.charLit :: st) = (false, StackSym.charLit :: st)
    ∧ handle_stack '\'' (StackSym.charLit :: st) = (false, st)
    ∧ extract_function_bodies
        ("fn f() \x7b let s = \"a\\\"b\x7d\"; \x7d").toList ["fn f()".toList]
      = some ["let s = \"a\\\"b".toList] := by
  refine ⟨?_, ?_, ?_, ?_, by decide⟩ <;> simp [handle_stack]

/-- Each found marker index contributes at most one extracted body. -/
theorem extractLoop_length_le (code : List Char) (idxs : List Nat)
    (res : List (List Char)) (h : extractLoop code idxs = some res) :
    res.length ≤ idxs.length := by
  induction idxs generalizing res with
  | nil =>
    simp only [extractLoop, Option.some.injEq] at h
    simp [← h]
  | cons s ss ih =>
    simp only [extractLoop] at h
    cases he : extractOne code s with
    | skip =>
      rw [he] at h
      exact Nat.le_trans (ih res h) (Nat.le_succ _)
    | panic => rw [he] at h; cases h
    | body b =>
      rw [he] at h
      cases hr : extractLoop code ss with
      | none => rw [hr] at h; cases h
      | some r =>
        rw [hr] at h
        simp at h
        subst h
        simpa using Nat.succ_le_succ (ih r hr)

/-- The marker scan produces at most one index per requested marker. -/
theorem findMarkersFrom_length_le (code : List Char) (idx : Nat)
    (fns : List (List Char)) :
    (findMarkersFrom code idx fns).length ≤ fns.length := by
  induction fns generalizing idx with
  | nil => simp [findMarkersFrom]
  | cons k ks ih =>
    simp only [findMarkersFrom]
    cases findSub k (code.drop idx) with
    | some j => simpa using Nat.succ_le_succ (ih _)
    | none => exact Nat.le_trans (ih _) (Nat.le_succ _)

/-- C7: when some marker is not found at or after the forward-only cursor,
the scan yields fewer start indices than markers, and a successful
extraction then returns a result list strictly shorter than the marker
list (no error is raised for the missing marker; later markers still
contribute their bodies, which is what makes the result list exactly the
bodies of the found-and-extracted markers). -/
theorem missing_marker_shortens_result (code : List Char)
    (fns : List (List Char)) (res : List (List Char))
    (h1 : (findMarkers code fns).length < fns.length)
    (h2 : extract_function_bodies code fns = some res) :
    res.length < fns.length
    ∧ res.length ≤ (findMarkers code fns).length :=
  ⟨Nat.lt_of_le_of_lt (extractLoop_length_le code _ res h2) h1,
   extractLoop_length_le code _ res h2⟩

theorem missing_marker_witness :
    ((findMarkers ("fn main() \x7b a \x7d\nfn output() \x7b b \x7d").toList
        ["fn main()".toList, "fn input()".toList, "fn output()".toList]).length < 3)
    ∧ (extract_function_bodies
        ("fn main() \x7b a \x7d\nfn output() \x7b b \x7d").toList
        ["fn main()".toList, "fn input()".toList, "fn output()".toList]
       = some ["a".toList, "b".toList])
    ∧ ((2 : Nat) < 3 ∧ (2 : Nat) ≤ 2) := by
  refine ⟨by decide, by decide, ?_⟩
  have h := missing_marker_shortens_result
    ("fn main() \x7b a \x7d\nfn output() \x7b b \x7d").toList
    ["fn main()".toList, "fn input()".toList, "fn output()".toList]
    ["a".toList, "b".toList] (by decide) (by decide)
  simpa using h

/-- A marker region whose first opening brace is never closed by the
scanner before the end of the file: exactly the situation in which the
Rust slice `code[start_brace_index + 1..end_index]` has
`end_index = start_brace_index`, i.e. a panic. -/
def regionBad (code : List Char) (s : Nat) : Bool :=
  match findSub ['\x7b'] (code.drop s) with
  | none => false
  | some j => (scanBody (code.drop (s + j + 1)) [StackSym.openBrace]).isNone

theorem extractOne_panic_iff (code : List Char) (s : Nat) :
    extractOne code s = ExtractOne.panic ↔ regionBad code s = true := by
  unfold extractOne regionBad
  cases findSub ['\x7b'] (code.drop s) with
  | none => simp
  | some j =>
    cases hs : scanBody (code.drop (s + j + 1)) [StackSym.openBrace] <;>
      simp [hs]

theorem regionBad_false_of_ne_panic (code : List Char) (s : Nat)
    (he : extractOne code s ≠ ExtractOne.panic) : ¬ regionBad code s = true :=
  fun hb => he ((extractOne_panic_iff code s).mpr hb)

theorem extractLoop_none_iff (code : List Char) (idxs : List Nat) :
    extractLoop code idxs = none ↔ ∃ s ∈ idxs, regionBad code s = true := by
  induction idxs with
  | nil => simp [extractLoop]
  | cons s ss ih =>
    simp only [extractLoop]
    cases he : extractOne code s with
    | skip =>
      have hnb := regionBad_false_of_ne_panic code s (by simp [he])
      simp [ih, hnb]
    | panic =>
      have hb : regionBad code s = true := (extractOne_panic_iff code s).mp he
      simp [hb]
    | body b =>
      have hnb := regionBad_false_of_ne_panic code s (by simp [he])
      cases hr : extractLoop code ss with
      | none => simp [hnb, ih.mp hr, ih]
      | some r =>
        have h2 : ¬ ∃ x ∈ ss, regionBad code x = true := by
          rw [← ih, hr]; simp
        push_neg at h2
        simp only [hr, Option.map_some', hnb]
        simp [hnb]
        intro x hx
        simpa using h2 x hx

/-- C10: `extract_function_bodies` panics (modelled by `none`) exactly
when some found marker has a first opening brace after it whose matching
closing brace is never reached by the comment/string automaton before end
of file; in particular a single such region makes the whole call panic
instead of returning a result or an error, and termination without panic
requires every found region to close. -/
theorem unclosed_brace_panics (code : List Char) (fns : List (List Char)) :
    extract_function_bodies code fns = none
    ↔ ∃ s ∈ findMarkers code fns, regionBad code s = true :=
  extractLoop_none_iff code (findMarkers code fns)

theorem unclosed_brace_panics_witness :
    extract_function_bodies ("fn main() \x7b let x = 1;").toList
      ["fn main()".toList] = none :=
  (unclosed_brace_panics ("fn main() \x7b let x = 1;").toList
    ["fn main()".toList]).mpr (by decide)

/-- The purge step keeps every `metrics.rs` entry, so its lookup result is
unchanged. -/
theorem lookup_purge_src (d : FileMap) :
    (purge_src d).lookup "metrics.rs" = d.lookup "metrics.rs" := by
  induction d with
  | nil => rfl
  | cons e d ih =>
    by_cases h : e.1 = "metrics.rs"
    · simp [purge_src, List.filter, h, List.lookup]
    · simp only [purge_src, List.filter_cons] at *
      have hb : (e.1 == "metrics.rs") = false := by simp [h]
      rw [hb]
      simp only [List.lookup]
      have hb2 : ("metrics.rs" == e.1) = false := by
        simp [Ne.symm h]
      rw [hb2]
      exact ih

/-- Overwriting a file with a different name does not change the lookup of
`metrics.rs`. -/
theorem lookup_insert_file_ne (d : FileMap) (n : String) (c : List Char)
    (h : n ≠ "metrics.rs") :
    (insert_file d n c).lookup "metrics.rs" = d.lookup "metrics.rs" := by
  induction d with
  | nil =>
    simp [insert_file, List.lookup, show ("metrics.rs" == n) = false by simp [Ne.symm h]]
  | cons e d ih =>
    simp only [insert_file, List.filter_cons] at *
    by_cases he : e.1 = n
    · have hb : (!(e.1 == n)) = false := by simp [he]
      rw [hb]
      have hb2 : ("metrics.rs" == e.1) = false := by
        simp [he, Ne.symm h]
      simp only [List.lookup, hb2]
      exact ih
    · have hb : (!(e.1 == n)) = true := by simp [he]
      rw [hb]
      simp only [List.lookup, List.cons_append]
      cases hq : ("metrics.rs" == e.1) <;> simp [ih]

/-- The copy loop never touches a `metrics.rs` entry: user files with that
name are skipped, all other copies overwrite differently named files. -/
theorem lookup_copy_into_src (user d : FileMap) :
    (copy_into_src user d).lookup "metrics.rs" = d.lookup "metrics.rs" := by
  induction user generalizing d with
  | nil => rfl
  | cons e u ih =>
    simp only [copy_into_src, List.foldl_cons] at *
    by_cases h : e.1 = "metrics.rs"
    · have hb : (e.1 == "metrics.rs") = true := by simp [h]
      rw [hb]
      simp only [if_true]
      exact ih d
    · have hb : (e.1 == "metrics.rs") = false := by simp [h]
      rw [hb]
      simp only [Bool.false_eq_true, if_false]
      rw [ih (insert_file d e.1 e.2), lookup_insert_file_ne d e.1 e.2 h]

/-- C6: workspace preparation never deletes or overwrites the preserved
`metrics.rs` helper: if the destination `src` directory holds a file named
`metrics.rs` before the purge, it holds the identical content after the
purge-and-copy completes (the purge skips it, and the copy excludes any
same-named user file). -/
theorem metrics_preserved (user dest : FileMap) (c : List Char)
    (h : dest.lookup "metrics.rs" = some c) :
    (prepare_workspace_src user dest).lookup "metrics.rs" = some c := by
  unfold prepare_workspace_src
  rw [lookup_copy_into_src, lookup_purge_src]
  exact h

theorem metrics_preserved_witness :
    ([(("metrics.rs" : String), ['m']), (("main.rs" : String), ['x'])].lookup
        "metrics.rs" = some ['m'])
    ∧ (prepare_workspace_src
         [(("main.rs" : String), ['y']), (("metrics.rs" : String), ['u'])]
         [(("metrics.rs" : String), ['m']), (("main.rs" : String), ['x'])]).lookup
        "metrics.rs" = some ['m'] :=
  ⟨by decide,
   metrics_preserved
     [(("main.rs" : String), ['y']), (("metrics.rs" : String), ['u'])]
     [(("metrics.rs" : String), ['m']), (("main.rs" : String), ['x'])]
     ['m'] (by decide)⟩

/-- C9: when the source manifest has no `[dependencies]` section, the
merge fails with the descriptive error message and the destination file
contents are unchanged (the error is returned before any write); when the
source does contain the section, the merge returns success. -/
theorem missing_deps_section_errors (src dst : List Char) :
    (findSub DEPS_HEADER src = none →
      copy_dependencies src dst = Except.error DEPS_ERR
      ∧ dest_after src dst = dst)
    ∧ (findSub DEPS_HEADER src ≠ none →
      (copy_dependencies src dst).isOk = true) := by
  constructor
  · intro h
    constructor
    · simp [copy_dependencies, h]
    · simp [dest_after, copy_dependencies, h]
  · intro h
    cases hf : findSub DEPS_HEADER src with
    | none => exact absurd hf h
    | some i =>
      simp only [copy_dependencies, hf]
      split
      · rfl
      · rfl

theorem missing_deps_section_witness :
    (copy_dependencies ("[package]\nname = \"demo\"\n").toList
        ("[dependencies]\nserde = \"0.9\"\n").toList
      = Except.error DEPS_ERR)
    ∧ (dest_after ("[package]\nname = \"demo\"\n").toList
        ("[dependencies]\nserde = \"0.9\"\n").toList
      = ("[dependencies]\nserde = \"0.9\"\n").toList)
    ∧ (copy_dependencies ("[dependencies]\nserde = \"1.0\"\n").toList
        ("[dependencies]\nserde = \"0.9\"\n").toList).isOk = true := by
  refine ⟨?_, ?_, ?_⟩
  · exact ((missing_deps_section_errors ("[package]\nname = \"demo\"\n").toList
      ("[dependencies]\nserde = \"0.9\"\n").toList).1 (by decide)).1
  · exact ((missing_deps_section_errors ("[package]\nname = \"demo\"\n").toList
      ("[dependencies]\nserde = \"0.9\"\n").toList).1 (by decide)).2
  · exact (missing_deps_section_errors ("[dependencies]\nserde = \"1.0\"\n").toList
      ("[dependencies]\nserde = \"0.9\"\n").toList).2 (by decide)

/-- Lines that do not start an import are skipped by the outer loop. -/
theorem getImportsGo_skips (P ls : List (List Char))
    (hP : ∀ l ∈ P, isImportStart l = false) :
    getImportsGo false (P ++ ls) = getImportsGo false ls := by
  induction P with
  | nil => rfl
  | cons p P ih =>
    have hp := hP p (List.mem_cons_self p P)
    simp only [List.cons_append, getImportsGo, hp, Bool.false_eq_true,
      if_false]
    exact ih (fun l hl => hP l (List.mem_cons_of_mem p hl))

/-- The inner loop appends continuation lines until the first one holding
the terminator, then returns to the outer loop. -/
theorem getImportsGo_joins (M : List (List Char)) (t : List Char)
    (S : List (List Char))
    (hM : ∀ l ∈ M, l.contains ';' = false)
    (ht : t.contains ';' = true) :
    getImportsGo true (M ++ t :: S)
      = (M.map (fun l => l ++ ['\n'])).flatten
        ++ ((t ++ ['\n']) ++ getImportsGo false S) := by
  induction M with
  | nil =>
    simp only [List.nil_append, getImportsGo, ht, List.map_nil,
      List.flatten_nil]
    simp
  | cons m M ih =>
    have hm := hM m (List.mem_cons_self m M)
    simp only [List.cons_append, getImportsGo, hm, Bool.false_eq_true,
      if_false, List.map_cons, List.flatten_cons, List.append_assoc,
      List.append_eq]
    rw [ih (fun l hl => hM l (List.mem_cons_of_mem m hl))]
    simp [List.append_assoc]

/-- C5: import extraction concatenates declarations in source order with
no deduplication or reordering: lines before an import-start line are
skipped; an import-start line without the terminator opens a logical entry
that absorbs every following line up to and including the first one that
contains `';'`, after which scanning resumes; an import-start line that
already contains the terminator is emitted on its own.  The remaining
lines `S` are processed identically, so repeated entries are emitted
repeatedly in order. -/
theorem imports_joined_in_order (P M S : List (List Char)) (u t v : List Char)
    (hP : ∀ l ∈ P, isImportStart l = false)
    (hu : isImportStart u = true)
    (hu2 : u.contains ';' = false)
    (hM : ∀ l ∈ M, l.contains ';' = false)
    (ht : t.contains ';' = true)
    (hv1 : isImportStart v = true)
    (hv2 : v.contains ';' = true) :
    (get_imports (P ++ u :: (M ++ t :: S))
      = (u ++ ['\n'])
        ++ ((M.map (fun l => l ++ ['\n'])).flatten
            ++ ((t ++ ['\n']) ++ get_imports S)))
    ∧ (get_imports (P ++ v :: S) = (v ++ ['\n']) ++ get_imports S) := by
  constructor
  · unfold get_imports
    rw [getImportsGo_skips P _ hP]
    simp only [getImportsGo, hu, hu2, Bool.false_eq_true, if_false, if_true]
    rw [getImportsGo_joins M t S hM ht]
    simp [List.append_assoc]
  · unfold get_imports
    rw [getImportsGo_skips P _ hP]
    simp only [getImportsGo, hv1, hv2, if_true]
    simp

theorem imports_joined_witness :
    get_imports
        [("fn a() ;x".toList), ("use std::\x7bfmt,".toList), ("  io\x7d;".toList),
         ("use foo;".toList), ("use foo;".toList)]
      = ("use std::\x7bfmt,\n  io\x7d;\nuse foo;\nuse foo;\n").toList := by
  have h := imports_joined_in_order
    [("fn a() ;x".toList)] [] [("use foo;".toList), ("use foo;".toList)]
    ("use std::\x7bfmt,".toList) ("  io\x7d;".toList) ("use foo;".toList)
    (by decide) (by decide) (by decide) (by decide) (by decide)
    (by decide) (by decide)
  have h2 := imports_joined_in_order
    ([] : List (List Char)) [] [("use foo;".toList)]
    ("use std::\x7bfmt,".toList) ("  io\x7d;".toList) ("use foo;".toList)
    (by decide) (by decide) (by decide) (by decide) (by decide)
    (by decide) (by decide)
  rw [show ([("fn a() ;x".toList), ("use std::\x7bfmt,".toList), ("  io\x7d;".toList),
         ("use foo;".toList), ("use foo;".toList)]
      = [("fn a() ;x".toList)] ++ ("use std::\x7bfmt,".toList)
        :: ([] ++ ("  io\x7d;".toList) :: [("use foo;".toList), ("use foo;".toList)]))
      from rfl]
  rw [h.1]
  rw [show [("use foo;".toList), ("use foo;".toList)]
      = [] ++ ("use foo;".toList) :: [("use foo;".toList)] from rfl]
  rw [h2.2]
  decide

theorem replaceAll_nil (pat rep : List Char) : replaceAll pat rep [] = [] := by
  simp [replaceAll]

theorem replaceAll_cons_neg (pat rep : List Char) (c : Char) (rest : List Char)
    (h : pat.isPrefixOf (c :: rest) = false) :
    replaceAll pat rep (c :: rest) = c :: replaceAll pat rep rest := by
  rw [replaceAll, dif_neg]
  simp [h]

theorem replaceAll_cons_pos (pat rep : List Char) (c : Char) (rest : List Char)
    (hpat : pat ≠ []) (h : pat.isPrefixOf (c :: rest) = true) :
    replaceAll pat rep (c :: rest)
      = rep ++ replaceAll pat rep ((c :: rest).drop pat.length) := by
  rw [replaceAll, dif_pos ⟨hpat, h⟩]

/-- `pat` does not occur in `s` at any start position below `n`. -/
def noOccBelow (pat s : List Char) (n : Nat) : Prop :=
  ∀ i, i < n → pat.isPrefixOf (s.drop i) = false

instance (pat s : List Char) (n : Nat) : Decidable (noOccBelow pat s n) := by
  unfold noOccBelow
  infer_instance

/-- A string in which the pattern never occurs is left unchanged by
`replaceAll`. -/
theorem replaceAll_no_occ (pat rep s : List Char)
    (h : noOccBelow pat s s.length) :
    replaceAll pat rep s = s := by
  induction s with
  | nil => exact replaceAll_nil pat rep
  | cons c rest ih =>
    rw [replaceAll_cons_neg pat rep c rest (h 0 (by simp))]
    rw [ih (fun i hi => h (i + 1) (by simpa using hi))]

/-- `replaceAll` rewrites the occurrence of `pat` sitting right after a
pattern-free region `a`, then continues on the remainder `b`. -/
theorem replaceAll_first_occ (pat rep a b : List Char) (hpat : pat ≠ [])
    (h : noOccBelow pat (a ++ (pat ++ b)) a.length) :
    replaceAll pat rep (a ++ (pat ++ b))
      = a ++ (rep ++ replaceAll pat rep b) := by
  induction a with
  | nil =>
    cases pat with
    | nil => exact absurd rfl hpat
    | cons p pat' =>
      rw [List.nil_append]
      rw [List.cons_append]
      rw [replaceAll_cons_pos _ rep p (pat' ++ b) hpat
        (by
          rw [← List.cons_append]
          exact List.isPrefixOf_iff_prefix.mpr (List.prefix_append _ _))]
      rw [← List.cons_append, List.drop_left' (by simp), List.nil_append]
  | cons x a' ih =>
    rw [List.cons_append]
    rw [replaceAll_cons_neg pat rep x (a' ++ (pat ++ b))
      (by simpa using h 0 (by simp))]
    rw [ih (fun i hi => by simpa using h (i + 1) (by simpa using hi))]
    rw [List.cons_append]

/-- C3: for a base host template consisting of a pattern-free region
`pre`, an `// INPUT //` marker line, a pattern-free region `mid`, an
`// OUTPUT //` marker line, and a pattern-free region `post` (the
line-shape hypotheses say the markers stand on lines of their own, and the
`noOccBelow` hypotheses say each marker occurs exactly once), host
generation prepends the import block, substitutes the input body for the
`// INPUT //` line and the output body for the `// OUTPUT //` line in
place, and then only applies the generic-token replacements
(`zk_rust_io::write` ↦ `stdin.write`, `zk_rust_io::out();` ↦
`proof.public_values.read();`); every other character of the template is
carried over unchanged. -/
theorem host_template_spliced
    (imports pre mid post input output : List Char)
    (hpre : pre = [] ∨ pre.getLast? = some '\n')
    (hmid1 : mid.head? = some '\n')
    (hmid2 : mid.getLast? = some '\n')
    (hpost : post = [] ∨ post.head? = some '\n')
    (h1 : noOccBelow HOST_INPUT
        ((imports ++ pre) ++ (HOST_INPUT ++ (mid ++ (HOST_OUTPUT ++ post))))
        (imports ++ pre).length)
    (h1b : noOccBelow HOST_INPUT (mid ++ (HOST_OUTPUT ++ post))
        (mid ++ (HOST_OUTPUT ++ post)).length)
    (h2 : noOccBelow HOST_OUTPUT
        (((imports ++ pre) ++ (input ++ mid)) ++ (HOST_OUTPUT ++ post))
        ((imports ++ pre) ++ (input ++ mid)).length)
    (h2b : noOccBelow HOST_OUTPUT post post.length) :
    prepare_host input output imports
        (pre ++ (HOST_INPUT ++ (mid ++ (HOST_OUTPUT ++ post))))
      = replaceAll IO_OUT SP1_HOST_READ
          (replaceAll IO_WRITE SP1_HOST_WRITE
            ((imports ++ pre) ++ (input ++ (mid ++ (output ++ post))))) := by
  unfold prepare_host
  have e1 : imports ++ (pre ++ (HOST_INPUT ++ (mid ++ (HOST_OUTPUT ++ post))))
      = (imports ++ pre) ++ (HOST_INPUT ++ (mid ++ (HOST_OUTPUT ++ post))) := by
    simp [List.append_assoc]
  rw [e1]
  rw [replaceAll_first_occ HOST_INPUT input (imports ++ pre)
    (mid ++ (HOST_OUTPUT ++ post)) (by decide) h1]
  rw [replaceAll_no_occ HOST_INPUT input (mid ++ (HOST_OUTPUT ++ post)) h1b]
  have e2 : (imports ++ pre) ++ (input ++ (mid ++ (HOST_OUTPUT ++ post)))
      = ((imports ++ pre) ++ (input ++ mid)) ++ (HOST_OUTPUT ++ post) := by
    simp [List.append_assoc]
  rw [e2]
  rw [replaceAll_first_occ HOST_OUTPUT output
    ((imports ++ pre) ++ (input ++ mid)) post (by decide) h2]
  rw [replaceAll_no_occ HOST_OUTPUT output post h2b]
  have e3 : ((imports ++ pre) ++ (input ++ mid)) ++ (output ++ post)
      = (imports ++ pre) ++ (input ++ (mid ++ (output ++ post))) := by
    simp [List.append_assoc]
  rw [e3]

theorem host_template_spliced_witness :
    prepare_host ("let a = 1;").toList ("println!(\"done\");").toList
        ("use foo;\n").toList
        (("head\n").toList
          ++ (HOST_INPUT ++ (("\nmiddle\n").toList
            ++ (HOST_OUTPUT ++ ("\ntail\n").toList))))
      = replaceAll IO_OUT SP1_HOST_READ
          (replaceAll IO_WRITE SP1_HOST_WRITE
            ((("use foo;\n").toList ++ ("head\n").toList)
              ++ (("let a = 1;").toList
                ++ (("\nmiddle\n").toList
                  ++ (("println!(\"done\");").toList
                    ++ ("\ntail\n").toList))))) :=
  host_template_spliced ("use foo;\n").toList ("head\n").toList
    ("\nmiddle\n").toList ("\ntail\n").toList
    ("let a = 1;").toList ("println!(\"done\");").toList
    (Or.inr (by decide)) (by decide) (by decide) (Or.inr (by decide))
    (by decide) (by decide) (by decide) (by decide)

theorem nil_isPre (l : List Char) : ([] : List Char).isPrefixOf l = true :=
  List.isPrefixOf_iff_prefix.mpr List.nil_prefix

theorem isPre_eq_false_of_not (pat s : List Char)
    (h : ¬ pat.isPrefixOf s = true) : pat.isPrefixOf s = false := by
  cases hq : pat.isPrefixOf s
  · rfl
  · exact absurd hq h

theorem findSub_some_isPre (pat s : List Char) (j : Nat)
    (h : findSub pat s = some j) : pat.isPrefixOf (s.drop j) = true := by
  induction s generalizing j with
  | nil =>
    by_cases hp : pat.isPrefixOf ([] : List Char) = true
    · simp only [findSub, hp, if_true, Option.some.injEq] at h
      subst h
      simpa using hp
    · simp [findSub, hp] at h
  | cons c rest ih =>
    by_cases hp : pat.isPrefixOf (c :: rest) = true
    · simp only [findSub, hp, if_true, Option.some.injEq] at h
      subst h
      simpa using hp
    · simp only [findSub, hp, if_false] at h
      cases hr : findSub pat rest with
      | none => simp [hr] at h
      | some j' =>
        rw [hr] at h
        simp at h
        subst h
        simpa using ih j' hr

theorem findSub_some_min (pat s : List Char) (j : Nat)
    (h : findSub pat s = some j) :
    ∀ k, k < j → pat.isPrefixOf (s.drop k) = false := by
  induction s generalizing j with
  | nil =>
    by_cases hp : pat.isPrefixOf ([] : List Char) = true
    · simp only [findSub, hp, if_true, Option.some.injEq] at h
      subst h
      intro k hk
      cases hk
    · simp [findSub, hp] at h
  | cons c rest ih =>
    by_cases hp : pat.isPrefixOf (c :: rest) = true
    · simp only [findSub, hp, if_true, Option.some.injEq] at h
      subst h
      intro k hk
      cases hk
    · simp only [findSub, hp, if_false] at h
      cases hr : findSub pat rest with
      | none => simp [hr] at h
      | some j' =>
        rw [hr] at h
        simp at h
        subst h
        intro k hk
        cases k with
        | zero =>
          simp only [List.drop_zero]
          exact isPre_eq_false_of_not _ _ hp
        | succ k' =>
          have hk' := ih j' hr k' (by omega)
          simpa using hk'

theorem findSub_none_all (pat s : List Char)
    (h : findSub pat s = none) :
    ∀ k, pat.isPrefixOf (s.drop k) = false := by
  induction s with
  | nil =>
    by_cases hp : pat.isPrefixOf ([] : List Char) = true
    · simp [findSub, hp] at h
    · intro k
      simp only [List.drop_nil]
      exact isPre_eq_false_of_not _ _ (by simpa using hp)
  | cons c rest ih =>
    by_cases hp : pat.isPrefixOf (c :: rest) = true
    · simp [findSub, hp] at h
    · simp only [findSub, hp, if_false] at h
      intro k
      cases k with
      | zero =>
        simp only [List.drop_zero]
        exact isPre_eq_false_of_not _ _ hp
      | succ k' =>
        cases hr : findSub pat rest with
        | none => simpa using ih hr k'
        | some j' => simp [hr] at h

theorem findSub_isSome_of_occ (pat s : List Char) (k : Nat)
    (h : pat.isPrefixOf (s.drop k) = true) :
    (findSub pat s).isSome = true := by
  cases hf : findSub pat s with
  | none => rw [findSub_none_all pat s hf k] at h; cases h
  | some j => rfl

theorem findSub_some_bound (pat s : List Char) (j : Nat)
    (h : findSub pat s = some j) : j + pat.length ≤ s.length := by
  have hp := findSub_some_isPre pat s j h
  have hle := (List.isPrefixOf_iff_prefix.mp hp).length_le
  simp only [List.length_drop] at hle
  by_cases hj : j ≤ s.length
  · omega
  · exfalso
    have hd : s.drop j = [] := List.drop_eq_nil_of_le (by omega)
    rw [hd] at hp
    have hpe : pat = [] := by
      have := List.isPrefixOf_iff_prefix.mp hp
      simpa using this
    subst hpe
    have h0 : findSub ([] : List Char) s = some 0 := by
      cases s <;> simp [findSub, nil_isPre]
    rw [h0] at h
    simp at h
    omega

/-- The first occurrence of a pattern is unchanged when the string is
extended on the right. -/
theorem findSub_append_some (pat s u : List Char) (j : Nat)
    (h : findSub pat s = some j) : findSub pat (s ++ u) = some j := by
  induction s generalizing j with
  | nil =>
    by_cases hp : pat.isPrefixOf ([] : List Char) = true
    · simp only [findSub, hp, if_true, Option.some.injEq] at h
      subst h
      have hpe : pat = [] := by simpa using hp
      subst hpe
      cases u <;> simp [findSub, nil_isPre]
    · simp [findSub, hp] at h
  | cons c rest ih =>
    by_cases hp : pat.isPrefixOf (c :: rest) = true
    · simp only [findSub, hp, if_true, Option.some.injEq] at h
      subst h
      have hp3 : pat.isPrefixOf (c :: (rest ++ u)) = true := by
        apply List.isPrefixOf_iff_prefix.mpr
        refine (List.isPrefixOf_iff_prefix.mp hp).trans ?_
        rw [← List.cons_append]
        exact List.prefix_append _ _
      rw [List.cons_append]
      simp [findSub, hp3]
    · simp only [findSub, hp, if_false] at h
      cases hr : findSub pat rest with
      | none => simp [hr] at h
      | some j' =>
        rw [hr] at h
        simp at h
        subst h
        have hb := findSub_some_bound pat rest j' hr
        have hp2 : pat.isPrefixOf (c :: (rest ++ u)) = false := by
          apply isPre_eq_false_of_not
          intro hq
          apply hp
          apply List.isPrefixOf_iff_prefix.mpr
          refine List.prefix_of_prefix_length_le
            (List.isPrefixOf_iff_prefix.mp hq) ?_ ?_
          · rw [← List.cons_append]
            exact List.prefix_append _ _
          · simp only [List.length_cons]
            omega
        rw [List.cons_append]
        simp only [findSub, hp2, if_false, ih j' hr]
        rfl

/-- When the pattern does not occur in `s` and no suffix of the pattern
can begin `u` (no occurrence straddles the boundary), the occurrences in
`s ++ u` are exactly the occurrences in `u`, shifted. -/
theorem findSub_append_none (pat s u : List Char)
    (hs : findSub pat s = none)
    (hstr : ∀ m, 0 < m → m < pat.length → (pat.drop m).isPrefixOf u = false) :
    findSub pat (s ++ u) = (findSub pat u).map (· + s.length) := by
  induction s with
  | nil =>
    simp only [List.nil_append, List.length_nil]
    cases findSub pat u <;> simp
  | cons c rest ih =>
    by_cases hp : pat.isPrefixOf (c :: rest) = true
    · simp [findSub, hp] at hs
    · simp only [findSub, hp, if_false] at hs
      cases hr : findSub pat rest with
      | some j' => simp [hr] at hs
      | none =>
        have hp2 : pat.isPrefixOf (c :: (rest ++ u)) = false := by
          apply isPre_eq_false_of_not
          intro hq
          by_cases hlen : pat.length ≤ (c :: rest).length
          · apply hp
            apply List.isPrefixOf_iff_prefix.mpr
            exact List.prefix_of_prefix_length_le
              (List.isPrefixOf_iff_prefix.mp hq) (List.prefix_append _ _) hlen
          · have hm := hstr (c :: rest).length (by simp) (by omega)
            have hdropPre : (pat.drop (c :: rest).length).isPrefixOf u = true := by
              apply List.isPrefixOf_iff_prefix.mpr
              have hpre := List.isPrefixOf_iff_prefix.mp hq
              obtain ⟨t, ht⟩ := hpre
              have hd := congrArg (List.drop (c :: rest).length) ht
              rw [List.drop_append_of_le_length (by omega)] at hd
              rw [← List.cons_append, List.drop_left] at hd
              exact ⟨t, hd⟩
            rw [hm] at hdropPre
            cases hdropPre
        rw [List.cons_append]
        simp only [findSub, hp2, if_false]
        rw [ih hr]
        cases findSub pat u <;> simp
        omega

theorem singleton_isPre_iff (c : Char) (u : List Char) :
    ([c].isPrefixOf u) = true ↔ u.head? = some c := by
  cases u with
  | nil => simp
  | cons x xs =>
    simp only [List.isPrefixOf_cons₂, nil_isPre, Bool.and_true, beq_iff_eq,
      List.head?_cons, Option.some.injEq]
    exact eq_comm

theorem isPre_head (pat u : List Char) (hne : pat ≠ [])
    (h : pat.isPrefixOf u = true) : u.head? = pat.head? := by
  obtain ⟨t, ht⟩ := List.isPrefixOf_iff_prefix.mp h
  subst ht
  rw [List.head?_append]
  cases pat with
  | nil => exact absurd rfl hne
  | cons p ps => rfl

theorem findSub_self_append (pat r : List Char) (h : pat ≠ []) :
    findSub pat (pat ++ r) = some 0 := by
  have hp : pat.isPrefixOf (pat ++ r) = true :=
    List.isPrefixOf_iff_prefix.mpr (List.prefix_append _ _)
  cases pat with
  | nil => exact absurd rfl h
  | cons p pt =>
    rw [List.cons_append] at hp ⊢
    simp [findSub, hp]

theorem deps_no_straddle (u : List Char) (hu : u.head? = some '\n') :
    ∀ m, 0 < m → m < DEPS_HEADER.length →
      (DEPS_HEADER.drop m).isPrefixOf u = false := by
  intro m hm1 hm2
  apply isPre_eq_false_of_not
  intro hq
  have hne : DEPS_HEADER.drop m ≠ [] := by
    intro he
    rw [List.drop_eq_nil_iff] at he
    have hl : DEPS_HEADER.length = 14 := rfl
    omega
  have hh := isPre_head _ u hne hq
  rw [hu] at hh
  have hdec : ∀ m' < DEPS_HEADER.length,
      (0 < m' → (DEPS_HEADER.drop m').head? ≠ some '\n') := by decide
  exact hdec m hm2 hm1 hh.symm

theorem nlb_no_straddle (u : List Char) (hu : u.head? ≠ some '[') :
    ∀ m, 0 < m → m < NL_LBRACK.length →
      (NL_LBRACK.drop m).isPrefixOf u = false := by
  intro m hm1 hm2
  have hm : m = 1 := by
    have hl : NL_LBRACK.length = 2 := rfl
    omega
  subst hm
  apply isPre_eq_false_of_not
  intro hq
  exact hu ((singleton_isPre_iff '[' u).mp (by simpa [NL_LBRACK] using hq))

theorem findSub_deps_append (s u : List Char)
    (hs : findSub DEPS_HEADER s = none) (hu : u.head? = some '\n') :
    findSub DEPS_HEADER (s ++ u)
      = (findSub DEPS_HEADER u).map (· + s.length) :=
  findSub_append_none _ _ _ hs (deps_no_straddle u hu)

theorem findSub_nlb_append (s u : List Char)
    (hs : findSub NL_LBRACK s = none) (hu : u.head? ≠ some '[') :
    findSub NL_LBRACK (s ++ u) = (findSub NL_LBRACK u).map (· + s.length) :=
  findSub_append_none _ _ _ hs (nlb_no_straddle u hu)

theorem findSub_cons_false (pat : List Char) (c : Char) (rest : List Char)
    (h : pat.isPrefixOf (c :: rest) = false) :
    findSub pat (c :: rest) = (findSub pat rest).map (· + 1) := by
  simp [findSub, h]

theorem findSub_cons_true (pat : List Char) (c : Char) (rest : List Char)
    (h : pat.isPrefixOf (c :: rest) = true) :
    findSub pat (c :: rest) = some 0 := by
  simp [findSub, h]

theorem findSub_deps_marker (r : List Char) :
    findSub DEPS_HEADER ('\n' :: (DEPS_HEADER ++ r)) = some 1 := by
  have hp0 : DEPS_HEADER.isPrefixOf ('\n' :: (DEPS_HEADER ++ r)) = false := by
    apply isPre_eq_false_of_not
    intro hq
    have hh := isPre_head _ _ (by decide) hq
    rw [show DEPS_HEADER.head? = some '[' from by decide] at hh
    simp at hh
  rw [findSub_cons_false _ _ _ hp0]
  rw [findSub_self_append DEPS_HEADER r (by decide)]
  rfl

theorem nlb_none_cons (c : Char) (s : List Char) (hc : c ≠ '\n')
    (h : findSub NL_LBRACK s = none) : findSub NL_LBRACK (c :: s) = none := by
  have hp : NL_LBRACK.isPrefixOf (c :: s) = false := by
    apply isPre_eq_false_of_not
    intro hq
    have hh := isPre_head _ _ (by decide) hq
    rw [show NL_LBRACK.head? = some '\n' from rfl] at hh
    simp at hh
    exact hc hh
  rw [findSub_cons_false _ _ _ hp, h]
  rfl

theorem nlb_none_cons_nl (s : List Char) (hs : s.head? ≠ some '[')
    (h : findSub NL_LBRACK s = none) :
    findSub NL_LBRACK ('\n' :: s) = none := by
  have hp : NL_LBRACK.isPrefixOf ('\n' :: s) = false := by
    apply isPre_eq_false_of_not
    intro hq
    have h2 : (['['] : List Char).isPrefixOf s = true := by
      simpa [NL_LBRACK, List.isPrefixOf_cons₂] using hq
    exact hs ((singleton_isPre_iff '[' s).mp h2)
  rw [findSub_cons_false _ _ _ hp, h]
  rfl

theorem nlb_none_append (d s : List Char) (hd : '\n' ∉ d)
    (h : findSub NL_LBRACK s = none) :
    findSub NL_LBRACK (d ++ s) = none := by
  induction d with
  | nil => simpa using h
  | cons x xs ih =>
    rw [List.cons_append]
    apply nlb_none_cons
    · intro he
      exact hd (he ▸ List.mem_cons_self x xs)
    · exact ih (fun hm => hd (List.mem_cons_of_mem x hm))

theorem joinDeps_head (d : List Char) (ds : List (List Char)) (hd : d ≠ []) :
    (joinDeps (d :: ds)).head? = d.head? := by
  cases ds with
  | nil => rfl
  | cons d' ds' =>
    show (d ++ '\n' :: joinDeps (d' :: ds')).head? = d.head?
    rw [List.head?_append]
    cases d with
    | nil => exact absurd rfl hd
    | cons x xs => rfl

theorem nlb_none_joinDeps (D : List (List Char))
    (hD : ∀ d ∈ D, d ≠ [] ∧ d.head? ≠ some '[' ∧ '\n' ∉ d) :
    findSub NL_LBRACK (joinDeps D ++ ['\n']) = none := by
  induction D with
  | nil => decide
  | cons d ds ih =>
    obtain ⟨hd1, hd2, hd3⟩ := hD d (List.mem_cons_self d ds)
    cases ds with
    | nil =>
      show findSub NL_LBRACK (d ++ ['\n']) = none
      exact nlb_none_append d ['\n'] hd3 (by decide)
    | cons d' ds' =>
      show findSub NL_LBRACK
        ((d ++ '\n' :: joinDeps (d' :: ds')) ++ ['\n']) = none
      rw [List.append_assoc, List.cons_append]
      apply nlb_none_append d _ hd3
      apply nlb_none_cons_nl
      · obtain ⟨hd1', hd2', _⟩ := hD d' (by simp)
        rw [List.head?_append, joinDeps_head d' ds' hd1']
        cases hh : d'.head? with
        | none => simp [List.head?_eq_none_iff] at hh; exact absurd hh hd1'
        | some x =>
          rw [hh] at hd2'
          simpa using hd2'
      · exact ih (fun x hx => hD x (List.mem_cons_of_mem d hx))

theorem splitOnChar_ne_nil (c : Char) (s : List Char) : splitOnChar c s ≠ [] := by
  cases s with
  | nil => simp [splitOnChar]
  | cons x xs =>
    simp only [splitOnChar]
    split_ifs
    · simp
    · cases h : splitOnChar c xs <;> simp

theorem splitOnChar_append_cons (c : Char) (a b : List Char) :
    splitOnChar c (a ++ c :: b) = splitOnChar c a ++ splitOnChar c b := by
  induction a with
  | nil => simp [splitOnChar]
  | cons x xs ih =>
    by_cases hx : x = c
    · subst hx
      simp only [List.cons_append, splitOnChar, if_true, List.append_eq]
      rw [ih]
    · simp only [List.cons_append, splitOnChar, hx, if_false, List.append_eq]
      rw [ih]
      cases h : splitOnChar c xs with
      | nil => exact absurd h (splitOnChar_ne_nil c xs)
      | cons y ys => simp

theorem splitOnChar_of_not_mem (c : Char) (d : List Char) (h : c ∉ d) :
    splitOnChar c d = [d] := by
  induction d with
  | nil => rfl
  | cons x xs ih =>
    have hx : x ≠ c := fun e => h (e ▸ List.mem_cons_self x xs)
    have hx2 : ¬ x = c := hx
    simp only [splitOnChar, hx2, if_false]
    rw [ih (fun hm => h (List.mem_cons_of_mem x hm))]

theorem not_mem_of_mem_splitOnChar (c : Char) (s l : List Char)
    (h : l ∈ splitOnChar c s) : c ∉ l := by
  induction s generalizing l with
  | nil =>
    simp only [splitOnChar, List.mem_singleton] at h
    subst h
    simp
  | cons x xs ih =>
    by_cases hx : x = c
    · subst hx
      simp only [splitOnChar, if_true, List.mem_cons] at h
      rcases h with h1 | h2
      · subst h1; simp
      · exact ih l h2
    · simp only [splitOnChar, hx, if_false] at h
      cases hs : splitOnChar c xs with
      | nil => exact absurd hs (splitOnChar_ne_nil c xs)
      | cons y ys =>
        rw [hs] at h
        rcases List.mem_cons.mp h with h1 | h2
        · subst h1
          intro hc
          rcases List.mem_cons.mp hc with h3 | h4
          · exact hx h3.symm
          · exact ih y (hs ▸ List.mem_cons_self y ys) h4
        · exact ih l (hs ▸ List.mem_cons_of_mem y h2)

theorem dropWhile_dropWhile (p : Char → Bool) (l : List Char) :
    (l.dropWhile p).dropWhile p = l.dropWhile p := by
  induction l with
  | nil => rfl
  | cons x xs ih =>
    by_cases hx : p x = true
    · simp only [List.dropWhile_cons, hx, if_true]
      exact ih
    · have hx' : p x = false := by
        cases hp : p x
        · rfl
        · exact absurd hp hx
      simp [List.dropWhile_cons, hx']

theorem dropWhile_of_head_false (p : Char → Bool) (l : List Char)
    (h : ∀ a, l.head? = some a → p a = false) : l.dropWhile p = l := by
  cases l with
  | nil => rfl
  | cons x xs =>
    have hx := h x rfl
    simp [List.dropWhile_cons, hx]

theorem head_dropWhile_false (p : Char → Bool) (l : List Char) (a : Char)
    (h : (l.dropWhile p).head? = some a) : p a = false := by
  induction l with
  | nil => cases h
  | cons x xs ih =>
    by_cases hx : p x = true
    · simp only [List.dropWhile_cons, hx, if_true] at h
      exact ih h
    · have hx' : p x = false := by
        cases hp : p x
        · rfl
        · exact absurd hp hx
      rw [List.dropWhile_cons, hx'] at h
      simp at h
      subst h
      exact hx'

theorem mem_trim (s : List Char) (a : Char) (h : a ∈ trim s) : a ∈ s := by
  unfold trim at h
  rw [List.mem_reverse] at h
  have h2 := (List.dropWhile_sublist isWs).mem h
  rw [List.mem_reverse] at h2
  exact (List.dropWhile_sublist isWs).mem h2

theorem getLast?_of_suffix (l₁ l₂ : List Char) (h : l₁ <:+ l₂) (hne : l₁ ≠ []) :
    l₂.getLast? = l₁.getLast? := by
  obtain ⟨t, ht⟩ := h
  subst ht
  rw [List.getLast?_append]
  cases hg : l₁.getLast? with
  | none => rw [List.getLast?_eq_none_iff] at hg; exact absurd hg hne
  | some x => rfl

theorem trim_trim (s : List Char) : trim (trim s) = trim s := by
  by_cases hu : (s.dropWhile isWs) = []
  · unfold trim
    rw [hu]
    rfl
  · have hvcase : trim s = [] ∨ trim s ≠ [] := em _
    rcases hvcase with hv | hv
    · rw [hv]
      rfl
    · -- head of `trim s` is not whitespace
      have hhead : ∀ a, (trim s).head? = some a → isWs a = false := by
        intro a ha
        unfold trim at ha
        rw [List.head?_reverse] at ha
        -- getLast? of dropWhile isWs u.reverse where u = s.dropWhile isWs
        have hsuf := List.dropWhile_suffix (l := (s.dropWhile isWs).reverse) isWs
        have hvne : (s.dropWhile isWs).reverse.dropWhile isWs ≠ [] := by
          intro he
          apply hv
          unfold trim
          rw [he]
          rfl
        have hg := getLast?_of_suffix _ _ hsuf hvne
        rw [← hg, List.getLast?_reverse] at ha
        exact head_dropWhile_false isWs s a ha
      -- tail of `trim s` is not whitespace either
      have htail : (trim s).reverse.dropWhile isWs = (trim s).reverse := by
        unfold trim
        rw [List.reverse_reverse]
        exact dropWhile_dropWhile isWs _
      have expand : ∀ X : List Char,
          trim X = ((X.dropWhile isWs).reverse.dropWhile isWs).reverse :=
        fun X => rfl
      rw [expand (trim s)]
      rw [dropWhile_of_head_false isWs (trim s) hhead]
      rw [htail, List.reverse_reverse]

theorem parseDeps_append_cons (a b : List Char) :
    parseDeps (a ++ '\n' :: b) = parseDeps a ++ parseDeps b := by
  unfold parseDeps
  rw [splitOnChar_append_cons, List.map_append, List.filter_append]

theorem parseDeps_nil : parseDeps [] = [] := by decide

theorem parseDeps_cons_nl (b : List Char) :
    parseDeps ('\n' :: b) = parseDeps b := by
  have h := parseDeps_append_cons [] b
  simpa [parseDeps_nil] using h

theorem parseDeps_append_nl (a : List Char) :
    parseDeps (a ++ ['\n']) = parseDeps a := by
  have h := parseDeps_append_cons a []
  simpa [parseDeps_nil] using h

theorem mem_parseDeps (sec l : List Char) (h : l ∈ parseDeps sec) :
    trim l = l ∧ l ≠ [] ∧ l.head? ≠ some '[' ∧ '\n' ∉ l := by
  unfold parseDeps at h
  obtain ⟨hmem, hpred⟩ := List.mem_filter.mp h
  obtain ⟨x, hx, hlx⟩ := List.mem_map.mp hmem
  subst hlx
  have hnl : '\n' ∉ x := not_mem_of_mem_splitOnChar '\n' sec x hx
  simp only [Bool.and_eq_true, Bool.not_eq_true'] at hpred
  obtain ⟨hp1, hp2⟩ := hpred
  refine ⟨trim_trim x, ?_, ?_, ?_⟩
  · intro he
    rw [he] at hp1
    simp at hp1
  · intro he
    rw [he] at hp2
    simp at hp2
  · intro hc
    exact hnl (mem_trim x '\n' hc)

theorem parseDeps_single (d : List Char)
    (h1 : trim d = d) (h2 : d ≠ []) (h3 : d.head? ≠ some '[')
    (h4 : '\n' ∉ d) : parseDeps d = [d] := by
  unfold parseDeps
  rw [splitOnChar_of_not_mem _ _ h4]
  simp only [List.map_cons, List.map_nil, h1]
  rw [List.filter_cons]
  have hp : (!d.isEmpty && !(d.head? == some '[')) = true := by
    simp only [Bool.and_eq_true, Bool.not_eq_true']
    constructor
    · cases d with
      | nil => exact absurd rfl h2
      | cons x xs => rfl
    · cases hh : d.head? == some '[' with
      | false => rfl
      | true => exact absurd (by simpa using hh) h3
  rw [if_pos hp]
  rfl

theorem parseDeps_joinDeps (D : List (List Char))
    (hD : ∀ d ∈ D, trim d = d ∧ d ≠ [] ∧ d.head? ≠ some '[' ∧ '\n' ∉ d) :
    D ≠ [] → parseDeps (joinDeps D ++ ['\n']) = D := by
  induction D with
  | nil => intro h; contradiction
  | cons d ds ih =>
    intro _
    obtain ⟨ht, hd1, hd2, hd3⟩ := hD d (List.mem_cons_self d ds)
    cases ds with
    | nil =>
      show parseDeps (joinDeps [d] ++ ['\n']) = [d]
      have he : joinDeps [d] = d := rfl
      rw [he, parseDeps_append_nl]
      exact parseDeps_single d ht hd1 hd2 hd3
    | cons d' ds' =>
      show parseDeps ((d ++ '\n' :: joinDeps (d' :: ds')) ++ ['\n'])
        = d :: d' :: ds'
      rw [List.append_assoc, List.cons_append, parseDeps_append_cons]
      rw [ih (fun x hx => hD x (List.mem_cons_of_mem d hx)) (by simp)]
      rw [parseDeps_single d ht hd1 hd2 hd3]
      rfl

theorem new_deps_nil_existing (S : List (List Char)) : new_deps S [] = S := by
  unfold new_deps
  simp

theorem mem_new_deps_self (S E : List (List Char))
    (h : ∀ d ∈ S, ∃ ex ∈ E, depKey ex = depKey d) : new_deps S E = [] := by
  unfold new_deps
  rw [List.filter_eq_nil_iff]
  intro d hd
  obtain ⟨ex, hex, hk⟩ := h d hd
  simp only [Bool.not_eq_true', Bool.not_eq_false]
  rw [List.any_eq_true]
  exact ⟨ex, hex, by simp [hk]⟩

theorem mem_new_deps (S E : List (List Char)) (d : List Char)
    (h : d ∈ new_deps S E) :
    d ∈ S ∧ E.any (fun ex => depKey ex == depKey d) = false := by
  have h2 := List.mem_filter.mp h
  refine ⟨h2.1, ?_⟩
  have h3 := h2.2
  simp only [Bool.not_eq_true'] at h3
  exact h3

theorem existing_deps_of_none (dst : List Char)
    (h : findSub DEPS_HEADER dst = none) : existing_deps dst = [] := by
  simp [existing_deps, h]

theorem existing_deps_of_some (dst : List Char) (i : Nat)
    (h : findSub DEPS_HEADER dst = some i) :
    existing_deps dst = parseDeps (depsSectionAfter dst i) := by
  simp [existing_deps, h]

theorem depsSectionAfter_of_nlb_none (content : List Char) (i : Nat)
    (h : findSub NL_LBRACK (content.drop (i + DEPS_HEADER.length)) = none) :
    depsSectionAfter content i = content.drop (i + DEPS_HEADER.length) := by
  unfold depsSectionAfter
  rw [h]
  simp [List.take_length]

/-- When the destination's `[dependencies]` section ends at a `"\n["`
delimiter strictly inside the file, appending anything to the file leaves
the parsed section unchanged. -/
theorem existing_deps_append_of_sect (dst u : List Char) (i j : Nat)
    (hd : findSub DEPS_HEADER dst = some i)
    (hn : findSub NL_LBRACK (dst.drop (i + DEPS_HEADER.length)) = some j) :
    existing_deps (dst ++ u) = existing_deps dst := by
  have hd2 := findSub_append_some DEPS_HEADER dst u i hd
  rw [existing_deps_of_some _ _ hd2, existing_deps_of_some _ _ hd]
  unfold depsSectionAfter
  have hb := findSub_some_bound _ _ _ hd
  rw [List.drop_append_of_le_length (by omega)]
  have hn2 := findSub_append_some NL_LBRACK _ u j hn
  rw [hn2, hn]
  simp only [Option.getD_some]
  have hjb := findSub_some_bound _ _ _ hn
  rw [List.take_append_of_le_length (by omega)]

/-- The header block appended when the destination lacks `[dependencies]`
(nothing otherwise). -/
def hdrOf (dst : List Char) : List Char :=
  if containsSub DEPS_HEADER dst then [] else '\n' :: (DEPS_HEADER ++ ['\n'])

/-- The padding newline appended when the destination contents do not end
with a newline. -/
def padOf (dst : List Char) : List Char :=
  if dst.getLast? == some '\n' then [] else ['\n']

/-- Everything `copy_dependencies` appends to the destination when it has
new dependencies `nd` to add. -/
def tailOf (dst : List Char) (nd : List (List Char)) : List Char :=
  hdrOf dst ++ (padOf dst ++ (joinDeps nd ++ ['\n']))

theorem copy_dependencies_ok_cases (src dst d : List Char) (i : Nat)
    (hf : findSub DEPS_HEADER src = some i)
    (h : copy_dependencies src dst = Except.ok d) :
    (new_deps (parseDeps (depsSectionAfter src i)) (existing_deps dst) = []
       ∧ d = dst)
    ∨ (new_deps (parseDeps (depsSectionAfter src i)) (existing_deps dst) ≠ []
       ∧ d = dst ++ tailOf dst
           (new_deps (parseDeps (depsSectionAfter src i))
             (existing_deps dst))) := by
  unfold copy_dependencies at h
  rw [hf] at h
  simp only at h
  by_cases hnd : (new_deps (parseDeps (depsSectionAfter src i))
      (existing_deps dst)).isEmpty = true
  · left
    rw [if_pos hnd] at h
    have hd : dst = d := by
      cases h
      rfl
    exact ⟨List.isEmpty_iff.mp hnd, hd.symm⟩
  · right
    rw [if_neg hnd] at h
    injection h with hd
    refine ⟨fun he => hnd (by rw [he]; rfl), ?_⟩
    rw [← hd]
    unfold tailOf hdrOf padOf
    by_cases hc : containsSub DEPS_HEADER dst = true
    · rw [if_pos hc, if_pos hc]
      simp [List.append_assoc]
    · rw [if_neg hc, if_neg hc]
      simp [List.append_assoc]

theorem tailOf_getLast (dst : List Char) (nd : List (List Char)) :
    (dst ++ tailOf dst nd).getLast? = some '\n' := by
  unfold tailOf
  simp [List.getLast?_append]

theorem joinDeps_head_ne_lbrack (nd : List (List Char)) (hnd : nd ≠ [])
    (hprops : ∀ d ∈ nd, trim d = d ∧ d ≠ [] ∧ d.head? ≠ some '[' ∧ '\n' ∉ d) :
    (joinDeps nd ++ ['\n']).head? ≠ some '[' := by
  cases nd with
  | nil => exact absurd rfl hnd
  | cons d ds =>
    obtain ⟨_, hd1, hd2, _⟩ := hprops d (List.mem_cons_self d ds)
    rw [List.head?_append, joinDeps_head d ds hd1]
    cases hh : d.head? with
    | none =>
      rw [List.head?_eq_none_iff] at hh
      exact absurd hh hd1
    | some x =>
      rw [hh] at hd2
      simpa using hd2

theorem pad_join_head (dst : List Char) (nd : List (List Char)) (hnd : nd ≠ [])
    (hprops : ∀ d ∈ nd, trim d = d ∧ d ≠ [] ∧ d.head? ≠ some '[' ∧ '\n' ∉ d) :
    (padOf dst ++ (joinDeps nd ++ ['\n'])).head? ≠ some '[' := by
  unfold padOf
  split_ifs
  · simpa using joinDeps_head_ne_lbrack nd hnd hprops
  · simp

theorem pad_join_none (dst : List Char) (nd : List (List Char)) (hnd : nd ≠ [])
    (hprops : ∀ d ∈ nd, trim d = d ∧ d ≠ [] ∧ d.head? ≠ some '[' ∧ '\n' ∉ d) :
    findSub NL_LBRACK (padOf dst ++ (joinDeps nd ++ ['\n'])) = none := by
  have hjoin := nlb_none_joinDeps nd
    (fun d hd => ⟨(hprops d hd).2.1, (hprops d hd).2.2.1, (hprops d hd).2.2.2⟩)
  unfold padOf
  split_ifs
  · simpa using hjoin
  · rw [List.cons_append, List.nil_append]
    exact nlb_none_cons_nl _ (joinDeps_head_ne_lbrack nd hnd hprops) hjoin

theorem pad_join_parse (dst : List Char) (nd : List (List Char)) (hnd : nd ≠ [])
    (hprops : ∀ d ∈ nd, trim d = d ∧ d ≠ [] ∧ d.head? ≠ some '[' ∧ '\n' ∉ d) :
    parseDeps (padOf dst ++ (joinDeps nd ++ ['\n'])) = nd := by
  have hjd := parseDeps_joinDeps nd hprops hnd
  unfold padOf
  split_ifs
  · simpa using hjd
  · rw [List.cons_append, List.nil_append, parseDeps_cons_nl]
    exact hjd

theorem containsSub_merge (dst : List Char) (nd : List (List Char)) :
    containsSub DEPS_HEADER (dst ++ tailOf dst nd) = true := by
  by_cases hc : containsSub DEPS_HEADER dst = true
  · unfold containsSub at hc ⊢
    cases hf : findSub DEPS_HEADER dst with
    | none => rw [hf] at hc; cases hc
    | some i => rw [findSub_append_some _ _ _ _ hf]; rfl
  · have hn : findSub DEPS_HEADER dst = none := by
      unfold containsSub at hc
      cases hf : findSub DEPS_HEADER dst with
      | none => rfl
      | some i => rw [hf] at hc; exact absurd rfl hc
    have htail : tailOf dst nd
        = '\n' :: (DEPS_HEADER
            ++ ('\n' :: (padOf dst ++ (joinDeps nd ++ ['\n'])))) := by
      unfold tailOf hdrOf
      rw [if_neg hc]
      simp [List.append_assoc]
    rw [htail]
    unfold containsSub
    rw [findSub_deps_append dst
      ('\n' :: (DEPS_HEADER ++ ('\n' :: (padOf dst ++ (joinDeps nd ++ ['\n'])))))
      hn rfl]
    rw [findSub_deps_marker]
    rfl

theorem existing_deps_merge_of_no_header (dst : List Char)
    (nd : List (List Char)) (hd0 : findSub DEPS_HEADER dst = none)
    (hnd : nd ≠ [])
    (hprops : ∀ d ∈ nd, trim d = d ∧ d ≠ [] ∧ d.head? ≠ some '[' ∧ '\n' ∉ d) :
    existing_deps (dst ++ tailOf dst nd) = nd := by
  have hc : ¬ containsSub DEPS_HEADER dst = true := by
    unfold containsSub
    rw [hd0]
    simp
  have htail : tailOf dst nd
      = '\n' :: (DEPS_HEADER
          ++ ('\n' :: (padOf dst ++ (joinDeps nd ++ ['\n'])))) := by
    unfold tailOf hdrOf
    rw [if_neg hc]
    simp [List.append_assoc]
  rw [htail]
  have hfd : findSub DEPS_HEADER
      (dst ++ '\n' :: (DEPS_HEADER
        ++ ('\n' :: (padOf dst ++ (joinDeps nd ++ ['\n'])))))
      = some (1 + dst.length) := by
    rw [findSub_deps_append dst
      ('\n' :: (DEPS_HEADER ++ ('\n' :: (padOf dst ++ (joinDeps nd ++ ['\n'])))))
      hd0 rfl]
    rw [findSub_deps_marker]
    rfl
  rw [existing_deps_of_some _ _ hfd]
  have hdrop : (dst ++ '\n' :: (DEPS_HEADER
        ++ ('\n' :: (padOf dst ++ (joinDeps nd ++ ['\n']))))).drop
        (1 + dst.length + DEPS_HEADER.length)
      = '\n' :: (padOf dst ++ (joinDeps nd ++ ['\n'])) := by
    have he : dst ++ '\n' :: (DEPS_HEADER
          ++ ('\n' :: (padOf dst ++ (joinDeps nd ++ ['\n']))))
        = (dst ++ '\n' :: DEPS_HEADER)
          ++ ('\n' :: (padOf dst ++ (joinDeps nd ++ ['\n']))) := by
      simp [List.append_assoc]
    rw [he]
    apply List.drop_left'
    simp only [List.length_append, List.length_cons]
    omega
  have hnlb : findSub NL_LBRACK
      ('\n' :: (padOf dst ++ (joinDeps nd ++ ['\n']))) = none :=
    nlb_none_cons_nl _ (pad_join_head dst nd hnd hprops)
      (pad_join_none dst nd hnd hprops)
  unfold depsSectionAfter
  rw [hdrop, hnlb]
  simp only [Option.getD_none, List.take_length]
  rw [parseDeps_cons_nl]
  exact pad_join_parse dst nd hnd hprops

theorem getLast?_drop_of_ne_nil (l : List Char) (n : Nat) (h : l.drop n ≠ []) :
    (l.drop n).getLast? = l.getLast? := by
  conv_rhs => rw [← List.take_append_drop n l]
  rw [List.getLast?_append]
  cases hg : (l.drop n).getLast? with
  | none =>
    rw [List.getLast?_eq_none_iff] at hg
    exact absurd hg h
  | some x => rfl

theorem eq_dropLast_append_of_getLast (l : List Char) (c : Char)
    (h : l.getLast? = some c) : l = l.dropLast ++ [c] := by
  induction l using List.reverseRecOn with
  | nil => cases h
  | append_singleton l' b _ =>
    rw [List.getLast?_concat] at h
    simp only [Option.some.injEq] at h
    subst h
    rw [List.dropLast_concat]

theorem existing_deps_merge_of_eof_sect (dst : List Char)
    (nd : List (List Char)) (i0 : Nat)
    (hd0 : findSub DEPS_HEADER dst = some i0)
    (hn0 : findSub NL_LBRACK (dst.drop (i0 + DEPS_HEADER.length)) = none)
    (hnd : nd ≠ [])
    (hprops : ∀ d ∈ nd, trim d = d ∧ d ≠ [] ∧ d.head? ≠ some '[' ∧ '\n' ∉ d) :
    existing_deps (dst ++ tailOf dst nd) = existing_deps dst ++ nd := by
  have hc : containsSub DEPS_HEADER dst = true := by
    unfold containsSub
    rw [hd0]
    rfl
  have htail : tailOf dst nd = padOf dst ++ (joinDeps nd ++ ['\n']) := by
    unfold tailOf hdrOf
    rw [if_pos hc]
    simp
  rw [htail]
  have hfd := findSub_append_some DEPS_HEADER dst
    (padOf dst ++ (joinDeps nd ++ ['\n'])) i0 hd0
  rw [existing_deps_of_some _ _ hfd, existing_deps_of_some _ _ hd0]
  have hb := findSub_some_bound _ _ _ hd0
  unfold depsSectionAfter
  rw [List.drop_append_of_le_length (by omega)]
  have hnlb : findSub NL_LBRACK
      (dst.drop (i0 + DEPS_HEADER.length)
        ++ (padOf dst ++ (joinDeps nd ++ ['\n']))) = none := by
    rw [findSub_nlb_append _ _ hn0 (pad_join_head dst nd hnd hprops)]
    rw [pad_join_none dst nd hnd hprops]
    rfl
  rw [hnlb, hn0]
  simp only [Option.getD_none, List.take_length]
  by_cases hpad : (dst.getLast? == some '\n') = true
  · have hpe : padOf dst = [] := by
      unfold padOf
      rw [if_pos hpad]
    rw [hpe, List.nil_append]
    by_cases hrest : dst.drop (i0 + DEPS_HEADER.length) = []
    · rw [hrest]
      simp only [List.nil_append, parseDeps_nil]
      exact parseDeps_joinDeps nd hprops hnd
    · have hlast : (dst.drop (i0 + DEPS_HEADER.length)).getLast? = some '\n' := by
        rw [getLast?_drop_of_ne_nil _ _ hrest]
        exact beq_iff_eq.mp hpad
      have hdecomp := eq_dropLast_append_of_getLast _ _ hlast
      rw [hdecomp]
      rw [List.append_assoc, List.singleton_append, parseDeps_append_cons]
      rw [parseDeps_append_nl ((dst.drop (i0 + DEPS_HEADER.length)).dropLast)]
      rw [parseDeps_joinDeps nd hprops hnd]
  · have hpe : padOf dst = ['\n'] := by
      unfold padOf
      rw [if_neg hpad]
    rw [hpe]
    rw [List.singleton_append, parseDeps_append_cons]
    rw [parseDeps_joinDeps nd hprops hnd]

/-- The logical lines of a manifest: the fragments produced by splitting
at newlines, without the empty fragment after a trailing newline. -/
def manifestLines (s : List Char) : List (List Char) :=
  if s.getLast? == some '\n' then (splitOnChar '\n' s).dropLast
  else splitOnChar '\n' s

theorem manifestLines_self (s : List Char) :
    manifestLines s <+: splitOnChar '\n' s := by
  unfold manifestLines
  split_ifs
  · exact List.dropLast_prefix _
  · exact List.prefix_refl _

theorem manifestLines_append (dst T : List Char)
    (h : dst.getLast? = some '\n' ∨ T.head? = some '\n') :
    manifestLines dst <+: splitOnChar '\n' (dst ++ T) := by
  rcases h with h | h
  · have hdec := eq_dropLast_append_of_getLast dst '\n' h
    unfold manifestLines
    rw [if_pos (by simp [h])]
    conv_rhs => rw [hdec, List.append_assoc, List.singleton_append,
      splitOnChar_append_cons]
    conv_lhs => rw [hdec, splitOnChar_append_cons]
    rw [show splitOnChar '\n' ([] : List Char) = [[]] from rfl]
    rw [List.dropLast_concat]
    exact List.prefix_append _ _
  · cases T with
    | nil => cases h
    | cons t T' =>
      simp only [List.head?_cons, Option.some.injEq] at h
      subst h
      rw [splitOnChar_append_cons]
      unfold manifestLines
      split_ifs
      · exact (List.dropLast_prefix _).trans (List.prefix_append _ _)
      · exact List.prefix_append _ _

theorem tailOf_head_or (dst : List Char) (nd : List (List Char)) :
    dst.getLast? = some '\n' ∨ (tailOf dst nd).head? = some '\n' := by
  by_cases hg : (dst.getLast? == some '\n') = true
  · exact Or.inl (beq_iff_eq.mp hg)
  · right
    unfold tailOf hdrOf padOf
    rw [if_neg hg]
    split_ifs
    · simp
    · simp

/-- C4: manifest dependency merging is idempotent on the dependency set
and never rewrites an existing destination entry: after a second merge of
the same source the destination's parsed `[dependencies]` set equals the
set after the first merge; the original destination contents are a prefix
of the merged contents (writes are pure appends), and every logical line
of the original destination survives unchanged as a line of the merged
file. -/
theorem manifest_merge_idempotent (src dst d₁ d₂ : List Char)
    (h₁ : copy_dependencies src dst = Except.ok d₁)
    (h₂ : copy_dependencies src d₁ = Except.ok d₂) :
    existing_deps d₂ = existing_deps d₁
    ∧ dst.isPrefixOf d₁ = true
    ∧ dst.isPrefixOf d₂ = true
    ∧ manifestLines dst <+: splitOnChar '\n' d₁ := by
  cases hf : findSub DEPS_HEADER src with
  | none =>
    unfold copy_dependencies at h₁
    rw [hf] at h₁
    cases h₁
  | some i =>
    have hprops : ∀ d ∈ new_deps (parseDeps (depsSectionAfter src i))
        (existing_deps dst),
        trim d = d ∧ d ≠ [] ∧ d.head? ≠ some '[' ∧ '\n' ∉ d := by
      intro d hd
      exact mem_parseDeps _ d (mem_new_deps _ _ d hd).1
    rcases copy_dependencies_ok_cases src dst d₁ i hf h₁ with
      ⟨hnd, hde⟩ | ⟨hnd, hde⟩
    · rw [hde] at h₂ ⊢
      rcases copy_dependencies_ok_cases src dst d₂ i hf h₂ with
        ⟨_, hde2⟩ | ⟨hnd2, _⟩
      · rw [hde2]
        exact ⟨rfl,
          List.isPrefixOf_iff_prefix.mpr (List.prefix_refl dst),
          List.isPrefixOf_iff_prefix.mpr (List.prefix_refl dst),
          manifestLines_self dst⟩
      · exact absurd hnd hnd2
    · subst hde
      have hpre1 : dst.isPrefixOf
          (dst ++ tailOf dst (new_deps (parseDeps (depsSectionAfter src i))
            (existing_deps dst))) = true :=
        List.isPrefixOf_iff_prefix.mpr (List.prefix_append _ _)
      have hlines := manifestLines_append dst
        (tailOf dst (new_deps (parseDeps (depsSectionAfter src i))
          (existing_deps dst)))
        (tailOf_head_or dst _)
      cases hd0 : findSub DEPS_HEADER dst with
      | none =>
        have hE1 := existing_deps_merge_of_no_header dst
          (new_deps (parseDeps (depsSectionAfter src i)) (existing_deps dst))
          hd0 hnd hprops
        have hE0 : existing_deps dst = [] := existing_deps_of_none dst hd0
        have hnd2 : new_deps (parseDeps (depsSectionAfter src i))
            (existing_deps (dst ++ tailOf dst
              (new_deps (parseDeps (depsSectionAfter src i))
                (existing_deps dst)))) = [] := by
          rw [hE1, hE0, new_deps_nil_existing]
          apply mem_new_deps_self
          intro d hd
          exact ⟨d, hd, rfl⟩
        rcases copy_dependencies_ok_cases src _ d₂ i hf h₂ with
          ⟨_, hde2⟩ | ⟨hnd2', _⟩
        · subst hde2
          exact ⟨rfl, hpre1, hpre1, hlines⟩
        · exact absurd hnd2 hnd2'
      | some i0 =>
        cases hn0 : findSub NL_LBRACK (dst.drop (i0 + DEPS_HEADER.length)) with
        | none =>
          have hE1 := existing_deps_merge_of_eof_sect dst
            (new_deps (parseDeps (depsSectionAfter src i)) (existing_deps dst))
            i0 hd0 hn0 hnd hprops
          have hnd2 : new_deps (parseDeps (depsSectionAfter src i))
              (existing_deps (dst ++ tailOf dst
                (new_deps (parseDeps (depsSectionAfter src i))
                  (existing_deps dst)))) = [] := by
            rw [hE1]
            apply mem_new_deps_self
            intro d hd
            by_cases hm : (existing_deps dst).any
                (fun ex => depKey ex == depKey d) = true
            · obtain ⟨ex, hex, hk⟩ := List.any_eq_true.mp hm
              exact ⟨ex, List.mem_append_left _ hex, beq_iff_eq.mp hk⟩
            · have hdm : d ∈ new_deps (parseDeps (depsSectionAfter src i))
                  (existing_deps dst) := by
                unfold new_deps
                apply List.mem_filter.mpr
                refine ⟨hd, ?_⟩
                simp only [Bool.not_eq_true']
                cases ha : (existing_deps dst).any
                    (fun ex => depKey ex == depKey d)
                · rfl
                · exact absurd ha hm
              exact ⟨d, List.mem_append_right _ hdm, rfl⟩
          rcases copy_dependencies_ok_cases src _ d₂ i hf h₂ with
            ⟨_, hde2⟩ | ⟨hnd2', _⟩
          · subst hde2
            exact ⟨rfl, hpre1, hpre1, hlines⟩
          · exact absurd hnd2 hnd2'
        | some j =>
          rcases copy_dependencies_ok_cases src _ d₂ i hf h₂ with
            ⟨_, hde2⟩ | ⟨hnd2', hde2⟩
          · subst hde2
            exact ⟨rfl, hpre1, hpre1, hlines⟩
          · have hE2 : existing_deps d₂ = existing_deps (dst ++ tailOf dst
                (new_deps (parseDeps (depsSectionAfter src i))
                  (existing_deps dst))) := by
              rw [hde2]
              apply existing_deps_append_of_sect _ _ i0 j
              · exact findSub_append_some _ _ _ _ hd0
              · have hb := findSub_some_bound _ _ _ hd0
                rw [List.drop_append_of_le_length (by omega)]
                exact findSub_append_some _ _ _ _ hn0
            refine ⟨hE2, hpre1, ?_, hlines⟩
            rw [hde2]
            apply List.isPrefixOf_iff_prefix.mpr
            exact (List.prefix_append dst _).trans (List.prefix_append _ _)

theorem manifest_merge_idempotent_witness :
    ((splitOnChar '\n' ("[dependencies]\nserde = \"0.9\"\n").toList).filter
        (fun l => ("serde".toList).isPrefixOf l)).length = 1
    ∧ (copy_dependencies ("[dependencies]\nserde = \"1.0\"\n").toList
         ("[dependencies]\nserde = \"0.9\"\n").toList
       = Except.ok ("[dependencies]\nserde = \"0.9\"\n").toList)
    ∧ (existing_deps ("[dependencies]\nserde = \"0.9\"\n").toList
         = existing_deps ("[dependencies]\nserde = \"0.9\"\n").toList
       ∧ (("[dependencies]\nserde = \"0.9\"\n").toList).isPrefixOf
           ("[dependencies]\nserde = \"0.9\"\n").toList = true
       ∧ (("[dependencies]\nserde = \"0.9\"\n").toList).isPrefixOf
           ("[dependencies]\nserde = \"0.9\"\n").toList = true
       ∧ manifestLines ("[dependencies]\nserde = \"0.9\"\n").toList
           <+: splitOnChar '\n' ("[dependencies]\nserde = \"0.9\"\n").toList) :=
  ⟨by decide, rfl,
   manifest_merge_idempotent ("[dependencies]\nserde = \"1.0\"\n").toList
     ("[dependencies]\nserde = \"0.9\"\n").toList
     ("[dependencies]\nserde = \"0.9\"\n").toList
     ("[dependencies]\nserde = \"0.9\"\n").toList
     rfl rfl⟩
